import Mathlib

/-!
Shallow embedding of `src/chapter-10.rs`: five "largest element" finder
functions and the driver `main`.

Modelling conventions:
* A Rust slice `&[T]` is a `List α`.
* `list[0]` on an empty slice panics; every finder therefore returns an
  `Option`, with `none` exactly when the input list is empty.
* A returned reference `&T` into the slice is modelled as the pair
  `(index, value)` of the referenced position; the loop of the by-reference
  variants runs over `list.enum`, mirroring `list.iter()` where each item
  is a reference (here: carries its position).
* The generic bound `T: PartialOrd` is modelled by an arbitrary boolean
  comparison `gt : α → α → Bool` standing for `>`; the concrete variants
  (`i32`, `char`) instantiate it with the strict order of a `LinearOrder`,
  matching Rust's total orders on `i32` and `char` (code-point order).
* Machine integers: `i32` comparison never overflows, so `Int` models it
  exactly; `char` is Lean `Char`, ordered by scalar value as in Rust.
-/

namespace Chapter10

/-- The strict `>` comparison of a linear order as a boolean test,
as used by the `i32` and `char` instantiations (`item > largest`). -/
def gtb {α : Type} [LinearOrder α] (a b : α) : Bool :=
  decide (b < a)

/-- The `for`-loop shared by the by-value variants:
`for item in list.iter() { if item > largest { largest = item } }`. -/
def copyLoop {α : Type} (gt : α → α → Bool) : α → List α → α
  | largest, [] => largest
  | largest, item :: rest =>
    copyLoop gt (if gt item largest then item else largest) rest

/-- The `for`-loop shared by the by-reference variants; the accumulator and
the items are `(index, value)` pairs and the comparison reads the values,
as `item > largest` on references compares the pointees. -/
def refLoop {α : Type} (gt : α → α → Bool) :
    Nat × α → List (Nat × α) → Nat × α
  | largest, [] => largest
  | largest, item :: rest =>
    refLoop gt (if gt item.2 largest.2 then item else largest) rest

/-- `fn largest_i32(list: &[i32]) -> i32`. -/
def largest_i32 (list : List Int) : Option Int :=
  match list with
  | [] => none
  | x :: _ => some (copyLoop gtb x list)

/-- `fn largest_char_copy(list: &[char]) -> char`. -/
def largest_char_copy (list : List Char) : Option Char :=
  match list with
  | [] => none
  | x :: _ => some (copyLoop gtb x list)

/-- `fn largest_char_ref(list: &[char]) -> &char`. -/
def largest_char_ref (list : List Char) : Option (Nat × Char) :=
  match list with
  | [] => none
  | x :: _ => some (refLoop gtb (0, x) list.enum)

/-- `fn largest_generic<T: PartialOrd>(list: &[T]) -> &T`. -/
def largest_generic {α : Type} (gt : α → α → Bool) (list : List α) :
    Option (Nat × α) :=
  match list with
  | [] => none
  | x :: _ => some (refLoop gt (0, x) list.enum)

/-- `fn largest_generic_copy<T: PartialOrd + Copy>(list: &[T]) -> T`. -/
def largest_generic_copy {α : Type} (gt : α → α → Bool) (list : List α) :
    Option α :=
  match list with
  | [] => none
  | x :: _ => some (copyLoop gt x list)

/-- The lines `fn main` writes to standard output, in order; `none` would
mean a panic of one of the finder calls (never reached: the sample lists
are non-empty).  Each `println!("<label> is {}", result)` becomes the
string `<label> is <value>`. -/
def main_output : Option (List String) := do
  let number_list : List Int := [34, 50, 25, 100, 65]
  let r1 ← largest_i32 number_list
  let char_list : List Char := ['y', 'm', 'a', 'q']
  let r2 ← largest_char_copy char_list
  let char_list : List Char := ['y', 'm', 'a', 'q']
  let r3 ← largest_char_ref char_list
  let char_list : List Char := ['y', 'm', 'a', 'q']
  let r4 ← largest_generic gtb char_list
  let number_list : List Int := [34, 50, 25, 100, 65]
  let r5 ← largest_generic gtb number_list
  let char_list : List Char := ['y', 'm', 'a', 'q']
  let r6 ← largest_generic_copy gtb char_list
  let number_list : List Int := [34, 50, 25, 100, 65]
  let r7 ← largest_generic_copy gtb number_list
  some ["largest_i32 is " ++ toString r1,
        "largest_char_copy is " ++ toString r2,
        "largest_char_ref is " ++ toString r3.2,
        "largest_generic is " ++ toString r4.2,
        "largest_generic is " ++ toString r5.2,
        "largest_generic is " ++ toString r6,
        "largest_generic is " ++ toString r7]

/-- The `<label>` part of each `println!` format string in `main`,
in invocation order (taken verbatim from the source). -/
def main_labels : List String :=
  ["largest_i32", "largest_char_copy", "largest_char_ref",
   "largest_generic", "largest_generic", "largest_generic", "largest_generic"]

/-- The name of the finder function `main` actually invokes for each of its
seven calls, in invocation order. -/
def main_invoked : List String :=
  ["largest_i32", "largest_char_copy", "largest_char_ref",
   "largest_generic", "largest_generic",
   "largest_generic_copy", "largest_generic_copy"]

/-- The value `main` interpolates into each line, in invocation order
(dereferenced for the by-reference variants). -/
def main_values : List String := ["100", "y", "y", "y", "100", "y", "100"]

/-- Index of the first occurrence of `a` in a list (length of the list if
`a` does not occur).  Used to state the first-occurrence tie-break. -/
def firstIdxOf {α : Type} [DecidableEq α] (a : α) : List α → Nat
  | [] => 0
  | x :: xs => if x = a then 0 else firstIdxOf a xs + 1

/-- Fuel-bounded version of `copyLoop`: `none` if the fuel runs out before
the scan finishes.  Used to state that the scan terminates within
`list.length` steps. -/
def copyLoopFuel {α : Type} (gt : α → α → Bool) :
    Nat → α → List α → Option α
  | _, largest, [] => some largest
  | 0, _, _ :: _ => none
  | fuel + 1, largest, item :: rest =>
    copyLoopFuel gt fuel (if gt item largest then item else largest) rest

/-- Fuel-bounded version of `refLoop`. -/
def refLoopFuel {α : Type} (gt : α → α → Bool) :
    Nat → Nat × α → List (Nat × α) → Option (Nat × α)
  | _, largest, [] => some largest
  | 0, _, _ :: _ => none
  | fuel + 1, largest, item :: rest =>
    refLoopFuel gt fuel (if gt item.2 largest.2 then item else largest) rest

example : largest_i32 [34, 50, 25, 100, 65] = some 100 := by decide
example : largest_char_copy ['y', 'm', 'a', 'q'] = some ('y') := by decide
example : largest_char_ref ['y', 'm', 'a', 'q'] = some (0, 'y') := by decide
example : largest_generic gtb (['a', 'b', 'b'] : List Char) = some (1, 'b') := by
  decide
example : main_output = some
    ["largest_i32 is 100", "largest_char_copy is y", "largest_char_ref is y",
     "largest_generic is y", "largest_generic is 100",
     "largest_generic is y", "largest_generic is 100"] := by decide

/-! ### Helper lemmas about the loops -/

theorem copyLoop_cons {α : Type} (gt : α → α → Bool) (v x : α) (xs : List α) :
    copyLoop gt v (x :: xs) = copyLoop gt (if gt x v then x else v) xs := rfl

theorem refLoop_cons {α : Type} (gt : α → α → Bool) (p q : Nat × α)
    (ps : List (Nat × α)) :
    refLoop gt p (q :: ps) = refLoop gt (if gt q.2 p.2 then q else p) ps := rfl

theorem copyLoop_mem {α : Type} (gt : α → α → Bool) (v : α) (l : List α) :
    copyLoop gt v l ∈ v :: l := by
  induction l generalizing v with
  | nil => exact List.mem_cons_self v []
  | cons x xs ih =>
    rw [copyLoop_cons]
    rcases List.mem_cons.mp (ih (if gt x v then x else v)) with h1 | h2
    · rw [h1]
      split
      · exact List.mem_cons_of_mem v (List.mem_cons_self x xs)
      · exact List.mem_cons_self v (x :: xs)
    · exact List.mem_cons_of_mem v (List.mem_cons_of_mem x h2)

theorem refLoop_mem {α : Type} (gt : α → α → Bool) (p : Nat × α)
    (ps : List (Nat × α)) : refLoop gt p ps ∈ p :: ps := by
  induction ps generalizing p with
  | nil => exact List.mem_cons_self p []
  | cons q qs ih =>
    rw [refLoop_cons]
    rcases List.mem_cons.mp (ih (if gt q.2 p.2 then q else p)) with h1 | h2
    · rw [h1]
      split
      · exact List.mem_cons_of_mem p (List.mem_cons_self q qs)
      · exact List.mem_cons_self p (q :: qs)
    · exact List.mem_cons_of_mem p (List.mem_cons_of_mem q h2)

theorem refLoop_snd {α : Type} (gt : α → α → Bool) (p : Nat × α)
    (ps : List (Nat × α)) :
    (refLoop gt p ps).2 = copyLoop gt p.2 (ps.map Prod.snd) := by
  induction ps generalizing p with
  | nil => rfl
  | cons q qs ih =>
    rw [List.map_cons, refLoop_cons, copyLoop_cons, ih]
    congr 1
    split <;> rfl

theorem gtb_ite {α : Type} [LinearOrder α] (v x : α) :
    (if gtb x v then x else v) = max v x := by
  simp only [gtb, decide_eq_true_eq]
  split
  · exact (max_eq_right (le_of_lt (by assumption))).symm
  · exact (max_eq_left (le_of_not_lt (by assumption))).symm

theorem copyLoop_eq_foldl {α : Type} [LinearOrder α] (v : α) (l : List α) :
    copyLoop gtb v l = l.foldl max v := by
  induction l generalizing v with
  | nil => rfl
  | cons x xs ih => rw [copyLoop_cons, gtb_ite, List.foldl_cons, ih]

theorem le_foldl_max {α : Type} [LinearOrder α] (v : α) (l : List α) :
    v ≤ l.foldl max v := by
  induction l generalizing v with
  | nil => exact le_refl v
  | cons x xs ih => exact le_trans (le_max_left v x) (ih (max v x))

theorem mem_le_foldl_max {α : Type} [LinearOrder α] (v : α) (l : List α) :
    ∀ x ∈ l, x ≤ l.foldl max v := by
  induction l generalizing v with
  | nil => intro x hx; cases hx
  | cons y ys ih =>
    intro x hx
    rcases List.mem_cons.mp hx with h | h
    · subst h; exact le_trans (le_max_right v x) (le_foldl_max (max v x) ys)
    · exact ih (max v y) x h

theorem foldl_max_mem {α : Type} [LinearOrder α] (v : α) (l : List α) :
    l.foldl max v ∈ v :: l := by
  rw [← copyLoop_eq_foldl]
  exact copyLoop_mem gtb v l

theorem foldl_max_of_forall_le {α : Type} [LinearOrder α] (l : List α) :
    ∀ v, (∀ x ∈ l, x ≤ v) → l.foldl max v = v := by
  induction l with
  | nil => intro v _; rfl
  | cons y ys ih =>
    intro v h
    rw [List.foldl_cons, max_eq_left (h y (List.mem_cons_self y ys))]
    exact ih v (fun x hx => h x (List.mem_cons_of_mem y hx))

theorem lt_foldl_max_of_not_forall {α : Type} [LinearOrder α] {l : List α}
    {v : α} (h : ¬ ∀ x ∈ l, x ≤ v) : v < l.foldl max v := by
  push_neg at h
  obtain ⟨x, hx, hvx⟩ := h
  exact lt_of_lt_of_le hvx (mem_le_foldl_max v l x hx)

theorem max_unique {α : Type} [LinearOrder α] {l : List α} {m₁ m₂ : α}
    (h₁ : m₁ ∈ l) (u₁ : ∀ x ∈ l, x ≤ m₁) (h₂ : m₂ ∈ l)
    (u₂ : ∀ x ∈ l, x ≤ m₂) : m₁ = m₂ :=
  le_antisymm (u₂ m₁ h₁) (u₁ m₂ h₂)

/-! ### The by-reference loop returns the first position of the maximum -/

theorem refLoop_enumFrom_of_forall_le {α : Type} [LinearOrder α] :
    ∀ (xs : List α) (s i₀ : Nat) (v₀ : α), (∀ x ∈ xs, x ≤ v₀) →
      refLoop gtb (i₀, v₀) (List.enumFrom s xs) = (i₀, v₀) := by
  intro xs
  induction xs with
  | nil => intro s i₀ v₀ _; rfl
  | cons x t ih =>
    intro s i₀ v₀ h
    rw [List.enumFrom_cons, refLoop_cons]
    have hcond : gtb x v₀ = false := by
      simp only [gtb, decide_eq_false_iff_not]
      exact not_lt.mpr (h x (List.mem_cons_self x t))
    rw [hcond]
    simp only [Bool.false_eq_true, if_false]
    exact ih (s + 1) i₀ v₀ (fun y hy => h y (List.mem_cons_of_mem x hy))

theorem refLoop_enumFrom_of_not_forall {α : Type} [LinearOrder α] :
    ∀ (xs : List α) (s i₀ : Nat) (v₀ : α), ¬ (∀ x ∈ xs, x ≤ v₀) →
      refLoop gtb (i₀, v₀) (List.enumFrom s xs) =
        (s + firstIdxOf (xs.foldl max v₀) xs, xs.foldl max v₀) := by
  intro xs
  induction xs with
  | nil =>
    intro s i₀ v₀ h
    exact absurd (fun x hx => absurd hx (List.not_mem_nil x)) h
  | cons x t ih =>
    intro s i₀ v₀ h
    rw [List.enumFrom_cons, refLoop_cons]
    by_cases hx : v₀ < x
    · have hcond : gtb x v₀ = true := by
        simp only [gtb, decide_eq_true_eq]; exact hx
      rw [hcond, if_pos rfl]
      have hfold : (x :: t).foldl max v₀ = t.foldl max x := by
        rw [List.foldl_cons, max_eq_right (le_of_lt hx)]
      by_cases hall : ∀ y ∈ t, y ≤ x
      · rw [refLoop_enumFrom_of_forall_le t (s + 1) s x hall, hfold,
          foldl_max_of_forall_le t x hall, firstIdxOf, if_pos rfl,
          Nat.add_zero]
      · rw [ih (s + 1) s x hall, hfold]
        have hlt : x < t.foldl max x := lt_foldl_max_of_not_forall hall
        rw [firstIdxOf, if_neg (ne_of_lt hlt)]
        rw [Prod.mk.injEq]
        exact ⟨by omega, rfl⟩
    · have hcond : gtb x v₀ = false := by
        simp only [gtb, decide_eq_false_iff_not]; exact hx
      rw [hcond]
      simp only [Bool.false_eq_true, if_false]
      have hxle : x ≤ v₀ := le_of_not_lt hx
      have hnall : ¬ ∀ y ∈ t, y ≤ v₀ := by
        intro hall
        exact h (fun y hy => by
          rcases List.mem_cons.mp hy with h1 | h2
          · exact h1 ▸ hxle
          · exact hall y h2)
      rw [ih (s + 1) i₀ v₀ hnall]
      have hfold : (x :: t).foldl max v₀ = t.foldl max v₀ := by
        rw [List.foldl_cons, max_eq_left hxle]
      have hlt : v₀ < t.foldl max v₀ := lt_foldl_max_of_not_forall hnall
      rw [hfold, firstIdxOf, if_neg (ne_of_lt (lt_of_le_of_lt hxle hlt)),
        Prod.mk.injEq]
      exact ⟨by omega, rfl⟩

/-! ### Per-variant characterizations -/

theorem largest_i32_eq_generic (l : List Int) :
    largest_i32 l = largest_generic_copy gtb l := by cases l <;> rfl

theorem largest_char_copy_eq_generic (c : List Char) :
    largest_char_copy c = largest_generic_copy gtb c := by cases c <;> rfl

theorem largest_char_ref_eq_generic (c : List Char) :
    largest_char_ref c = largest_generic gtb c := by cases c <;> rfl

theorem largest_generic_copy_eq {α : Type} [LinearOrder α] (x : α)
    (xs : List α) :
    largest_generic_copy gtb (x :: xs) = some (xs.foldl max x) := by
  show some (copyLoop gtb x (x :: xs)) = some (xs.foldl max x)
  rw [copyLoop_cons, ite_self, copyLoop_eq_foldl]

theorem largest_generic_eq {α : Type} [LinearOrder α] (x : α) (xs : List α) :
    largest_generic gtb (x :: xs) =
      some (firstIdxOf (xs.foldl max x) (x :: xs), xs.foldl max x) := by
  show some (refLoop gtb (0, x) (List.enum (x :: xs))) = _
  have henum : List.enum (x :: xs) = (0, x) :: List.enumFrom 1 xs := rfl
  rw [henum, refLoop_cons]
  have hcond : gtb x x = false := by
    simp only [gtb, decide_eq_false_iff_not]; exact lt_irrefl x
  rw [hcond]
  simp only [Bool.false_eq_true, if_false]
  by_cases hall : ∀ y ∈ xs, y ≤ x
  · rw [refLoop_enumFrom_of_forall_le xs 1 0 x hall,
      foldl_max_of_forall_le xs x hall, firstIdxOf, if_pos rfl]
  · rw [refLoop_enumFrom_of_not_forall xs 1 0 x hall]
    have hlt : x < xs.foldl max x := lt_foldl_max_of_not_forall hall
    rw [firstIdxOf, if_neg (ne_of_lt hlt), Nat.add_comm 1]

theorem largest_generic_snd {α : Type} (gt : α → α → Bool) (l : List α) :
    (largest_generic gt l).map Prod.snd = largest_generic_copy gt l := by
  cases l with
  | nil => rfl
  | cons x xs =>
    show some (refLoop gt (0, x) (List.enum (x :: xs))).2 = _
    rw [refLoop_snd]
    have : (List.enum (x :: xs)).map Prod.snd = x :: xs :=
      List.enumFrom_map_snd 0 (x :: xs)
    rw [this]
    rfl

/-! ### First-index and count lemmas -/

theorem firstIdxOf_getElem {α : Type} [DecidableEq α] :
    ∀ (l : List α) (a : α), a ∈ l → l[firstIdxOf a l]? = some a := by
  intro l
  induction l with
  | nil => intro a ha; cases ha
  | cons x xs ih =>
    intro a ha
    by_cases hxa : x = a
    · rw [firstIdxOf, if_pos hxa, List.getElem?_cons_zero, hxa]
    · have hmem : a ∈ xs := by
        rcases List.mem_cons.mp ha with h1 | h2
        · exact absurd h1.symm hxa
        · exact h2
      rw [firstIdxOf, if_neg hxa, List.getElem?_cons_succ]
      exact ih a hmem

theorem getElem_lt_firstIdxOf {α : Type} [DecidableEq α] :
    ∀ (l : List α) (a : α) (j : Nat), j < firstIdxOf a l → l[j]? ≠ some a := by
  intro l
  induction l with
  | nil =>
    intro a j _ hc
    rw [List.getElem?_nil] at hc
    cases hc
  | cons x xs ih =>
    intro a j h
    rw [firstIdxOf] at h
    by_cases hxa : x = a
    · rw [if_pos hxa] at h; omega
    · rw [if_neg hxa] at h
      cases j with
      | zero =>
        rw [List.getElem?_cons_zero]
        intro hc
        exact hxa (Option.some.inj hc)
      | succ k =>
        rw [List.getElem?_cons_succ]
        exact ih a k (by omega)

theorem two_le_count_exists {α : Type} [DecidableEq α] :
    ∀ (l : List α) (a : α), 2 ≤ l.count a →
      ∃ p q : Nat, p < q ∧ l[p]? = some a ∧ l[q]? = some a := by
  intro l
  induction l with
  | nil => intro a h; rw [List.count_nil] at h; omega
  | cons x xs ih =>
    intro a h
    by_cases hxa : a = x
    · subst hxa
      rw [List.count_cons_self] at h
      have hmem : a ∈ xs := List.count_pos_iff.mp (by omega)
      obtain ⟨q, hq⟩ := List.mem_iff_getElem?.mp hmem
      refine ⟨0, q + 1, by omega, List.getElem?_cons_zero, ?_⟩
      rw [List.getElem?_cons_succ]
      exact hq
    · rw [List.count_cons_of_ne hxa] at h
      obtain ⟨p, q, hpq, hp, hq⟩ := ih a h
      refine ⟨p + 1, q + 1, by omega, ?_, ?_⟩
      · rw [List.getElem?_cons_succ]; exact hp
      · rw [List.getElem?_cons_succ]; exact hq

/-! ### Sorted lists: the last element is the maximum -/

theorem sorted_getElem_getLast {α : Type} [LinearOrder α] :
    ∀ (l : List α) (m : α), l.Sorted (fun a b => a ≤ b) →
      l.getLast? = some m → ∀ x ∈ l, x ≤ m := by
  intro l
  induction l with
  | nil => intro m _ hl; cases hl
  | cons a t ih =>
    intro m hs hl x hx
    cases t with
    | nil =>
      rw [List.getLast?_singleton] at hl
      rcases List.mem_singleton.mp hx with rfl
      exact le_of_eq (Option.some.inj hl)
    | cons b t₂ =>
      rw [List.getLast?_cons_cons] at hl
      have hs₂ := (List.sorted_cons.mp hs).2
      have ha := (List.sorted_cons.mp hs).1
      rcases List.mem_cons.mp hx with h1 | h2
      · subst h1
        have hmem : m ∈ b :: t₂ :=
          List.mem_of_mem_getLast? (Option.mem_def.mpr hl)
        exact ha m hmem
      · exact ih m hs₂ hl x h2

theorem getLast_insertionSort_spec {α : Type} [LinearOrder α] (l : List α)
    (h : l ≠ []) :
    ∃ m, (List.insertionSort (fun a b => a ≤ b) l).getLast? = some m ∧
      m ∈ l ∧ ∀ y ∈ l, y ≤ m := by
  have hperm := List.perm_insertionSort (fun a b => a ≤ b) l
  have hsort := List.sorted_insertionSort (fun a b => a ≤ b) l
  have hne : List.insertionSort (fun a b => a ≤ b) l ≠ [] := by
    intro hc
    apply h
    have := hperm.length_eq
    rw [hc] at this
    exact List.length_eq_zero.mp this.symm
  obtain ⟨m, hm⟩ := Option.isSome_iff_exists.mp (List.getLast?_isSome.mpr hne)
  refine ⟨m, hm, ?_, ?_⟩
  · exact hperm.mem_iff.mp (List.mem_of_mem_getLast? (Option.mem_def.mpr hm))
  · intro y hy
    exact sorted_getElem_getLast _ m hsort hm y (hperm.mem_iff.mpr hy)

theorem value_eq_sortedLast {α : Type} [LinearOrder α] {l : List α} {m : α}
    (hmem : m ∈ l) (hub : ∀ y ∈ l, y ≤ m) :
    (List.insertionSort (fun a b => a ≤ b) l).getLast? = some m := by
  have hne : l ≠ [] := by intro hc; subst hc; cases hmem
  obtain ⟨m₂, hm₂, hmem₂, hub₂⟩ := getLast_insertionSort_spec l hne
  rw [hm₂]
  exact congrArg some (max_unique hmem₂ hub₂ hmem hub)

theorem foldl_max_spec {α : Type} [LinearOrder α] (x : α) (xs : List α) :
    xs.foldl max x ∈ x :: xs ∧ ∀ y ∈ x :: xs, y ≤ xs.foldl max x := by
  refine ⟨foldl_max_mem x xs, ?_⟩
  intro y hy
  rcases List.mem_cons.mp hy with h1 | h2
  · subst h1; exact le_foldl_max y xs
  · exact mem_le_foldl_max x xs y h2

theorem copyLoopFuel_eq {α : Type} (gt : α → α → Bool) :
    ∀ (l : List α) (v : α),
      copyLoopFuel gt l.length v l = some (copyLoop gt v l) := by
  intro l
  induction l with
  | nil => intro v; rfl
  | cons x xs ih => intro v; exact ih (if gt x v then x else v)

theorem refLoopFuel_eq {α : Type} (gt : α → α → Bool) :
    ∀ (ps : List (Nat × α)) (p : Nat × α),
      refLoopFuel gt ps.length p ps = some (refLoop gt p ps) := by
  intro ps
  induction ps with
  | nil => intro p; rfl
  | cons q qs ih => intro p; exact ih (if gt q.2 p.2 then q else p)

theorem copy_eq_sortedLast {α : Type} [LinearOrder α] (l : List α)
    (h : l ≠ []) :
    largest_generic_copy gtb l =
      (List.insertionSort (fun a b => a ≤ b) l).getLast? := by
  cases l with
  | nil => exact absurd rfl h
  | cons x xs =>
    rw [largest_generic_copy_eq,
      value_eq_sortedLast (foldl_max_spec x xs).1 (foldl_max_spec x xs).2]

theorem copy_perm {α : Type} [LinearOrder α] {l₁ l₂ : List α}
    (hp : l₁.Perm l₂) (h : l₁ ≠ []) :
    largest_generic_copy gtb l₁ = largest_generic_copy gtb l₂ := by
  cases l₁ with
  | nil => exact absurd rfl h
  | cons x xs =>
    cases l₂ with
    | nil =>
      have := hp.length_eq
      rw [List.length_cons, List.length_nil] at this
      omega
    | cons y ys =>
      rw [largest_generic_copy_eq, largest_generic_copy_eq]
      refine congrArg some (max_unique (foldl_max_spec x xs).1
        (foldl_max_spec x xs).2 (hp.mem_iff.mpr (foldl_max_spec y ys).1) ?_)
      intro z hz
      exact (foldl_max_spec y ys).2 z (hp.mem_iff.mp hz)

theorem ref_first_occurrence {α : Type} [LinearOrder α] {l : List α}
    {i : Nat} {m : α} (hg : largest_generic gtb l = some (i, m))
    (hd : ∃ p q : Nat, p < q ∧ l[p]? = some m ∧ l[q]? = some m) :
    l[i]? = some m ∧ (∀ k < i, l[k]? ≠ some m) ∧
      ∃ k, i < k ∧ l[k]? = some m := by
  cases l with
  | nil => cases hg
  | cons x xs =>
    rw [largest_generic_eq] at hg
    have hpair := Option.some.inj hg
    have hm : xs.foldl max x = m := congrArg Prod.snd hpair
    subst hm
    have hi : firstIdxOf (xs.foldl max x) (x :: xs) = i :=
      congrArg Prod.fst hpair
    subst hi
    refine ⟨firstIdxOf_getElem (x :: xs) _ (foldl_max_spec x xs).1,
      fun k hk => getElem_lt_firstIdxOf (x :: xs) _ k hk, ?_⟩
    obtain ⟨p, q, hpq, hp, hq⟩ := hd
    refine ⟨q, ?_, hq⟩
    by_contra hqle
    push_neg at hqle
    exact getElem_lt_firstIdxOf (x :: xs) _ p (by omega) hp

/-! ### Claim theorems -/

/-- C1: for every non-empty sequence, each finder variant (`largest_i32`,
`largest_char_copy`, `largest_char_ref`, `largest_generic`,
`largest_generic_copy`, the by-reference ones up to dereferencing) returns
the true maximum of the sequence, i.e. the last element of the sequence
sorted in ascending order. -/
theorem spec_c1 (l : List Int) (c : List Char) (hl : l ≠ []) (hc : c ≠ []) :
    largest_i32 l = (List.insertionSort (fun a b => a ≤ b) l).getLast? ∧
    largest_generic_copy gtb l =
      (List.insertionSort (fun a b => a ≤ b) l).getLast? ∧
    (largest_generic gtb l).map Prod.snd =
      (List.insertionSort (fun a b => a ≤ b) l).getLast? ∧
    largest_char_copy c =
      (List.insertionSort (fun a b => a ≤ b) c).getLast? ∧
    (largest_char_ref c).map Prod.snd =
      (List.insertionSort (fun a b => a ≤ b) c).getLast? ∧
    (largest_generic gtb c).map Prod.snd =
      (List.insertionSort (fun a b => a ≤ b) c).getLast? ∧
    largest_generic_copy gtb c =
      (List.insertionSort (fun a b => a ≤ b) c).getLast? := by
  have h1 := copy_eq_sortedLast l hl
  have h2 := copy_eq_sortedLast c hc
  refine ⟨?_, h1, ?_, ?_, ?_, ?_, h2⟩
  · rw [largest_i32_eq_generic]; exact h1
  · rw [largest_generic_snd]; exact h1
  · rw [largest_char_copy_eq_generic]; exact h2
  · rw [largest_char_ref_eq_generic, largest_generic_snd]; exact h2
  · rw [largest_generic_snd]; exact h2

/-- C1 witness: the theorem applied to the driver's sample sequences. -/
theorem spec_c1_witness :
    largest_i32 [34, 50, 25, 100, 65] =
      (List.insertionSort (fun a b => a ≤ b)
        ([34, 50, 25, 100, 65] : List Int)).getLast? ∧
    largest_generic_copy gtb ([34, 50, 25, 100, 65] : List Int) =
      (List.insertionSort (fun a b => a ≤ b)
        ([34, 50, 25, 100, 65] : List Int)).getLast? ∧
    (largest_generic gtb ([34, 50, 25, 100, 65] : List Int)).map Prod.snd =
      (List.insertionSort (fun a b => a ≤ b)
        ([34, 50, 25, 100, 65] : List Int)).getLast? ∧
    largest_char_copy ['y', 'm', 'a', 'q'] =
      (List.insertionSort (fun a b => a ≤ b) ['y', 'm', 'a', 'q']).getLast? ∧
    (largest_char_ref ['y', 'm', 'a', 'q']).map Prod.snd =
      (List.insertionSort (fun a b => a ≤ b) ['y', 'm', 'a', 'q']).getLast? ∧
    (largest_generic gtb (['y', 'm', 'a', 'q'] : List Char)).map Prod.snd =
      (List.insertionSort (fun a b => a ≤ b) ['y', 'm', 'a', 'q']).getLast? ∧
    largest_generic_copy gtb (['y', 'm', 'a', 'q'] : List Char) =
      (List.insertionSort (fun a b => a ≤ b) ['y', 'm', 'a', 'q']).getLast? :=
  spec_c1 [34, 50, 25, 100, 65] ['y', 'm', 'a', 'q'] (by decide) (by decide)

/-- C2: when the maximum value occurs more than once, the by-reference
variants (`largest_generic`, `largest_char_ref`) return the first position
holding that value: the returned index points at the value, no earlier
position holds it, and a strictly later position also holds it. -/
theorem spec_c2 {α : Type} [LinearOrder α] (l : List α) (cs : List Char)
    (i : Nat) (m : α) (j : Nat) (ch : Char)
    (hg : largest_generic gtb l = some (i, m)) (hgd : 2 ≤ l.count m)
    (hr : largest_char_ref cs = some (j, ch)) (hrd : 2 ≤ cs.count ch) :
    (l[i]? = some m ∧ (∀ k < i, l[k]? ≠ some m) ∧
      ∃ k, i < k ∧ l[k]? = some m) ∧
    (cs[j]? = some ch ∧ (∀ k < j, cs[k]? ≠ some ch) ∧
      ∃ k, j < k ∧ cs[k]? = some ch) := by
  refine ⟨ref_first_occurrence hg (two_le_count_exists l m hgd),
    ref_first_occurrence ?_ (two_le_count_exists cs ch hrd)⟩
  rw [← largest_char_ref_eq_generic]
  exact hr

/-- C2 witness: on `[1, 5, 5]` the generic by-reference finder returns
position 1, and on `['a', 'b', 'b']` the char by-reference finder returns
position 1; in both lists the maximum occurs twice. -/
theorem spec_c2_witness :
    (([1, 5, 5] : List Int)[1]? = some 5 ∧
      (∀ k < 1, ([1, 5, 5] : List Int)[k]? ≠ some 5) ∧
      ∃ k, 1 < k ∧ ([1, 5, 5] : List Int)[k]? = some 5) ∧
    ((['a', 'b', 'b'] : List Char)[1]? = some ('b') ∧
      (∀ k < 1, (['a', 'b', 'b'] : List Char)[k]? ≠ some ('b')) ∧
      ∃ k, 1 < k ∧ (['a', 'b', 'b'] : List Char)[k]? = some ('b')) :=
  spec_c2 [1, 5, 5] ['a', 'b', 'b'] 1 5 1 'b'
    (by decide) (by decide) (by decide) (by decide)

/-- C3: every finder variant fails (returns `none`, the model of the
out-of-bounds panic on `list[0]`) exactly on the empty sequence, and on any
non-empty input no variant can fail. -/
theorem spec_c3 :
    (largest_i32 [] = none ∧ largest_char_copy [] = none ∧
     largest_char_ref [] = none ∧
     ∀ (α : Type) (gt : α → α → Bool),
       largest_generic gt [] = none ∧ largest_generic_copy gt [] = none) ∧
    (∀ l : List Int, l ≠ [] → (largest_i32 l).isSome = true) ∧
    (∀ c : List Char, c ≠ [] →
      (largest_char_copy c).isSome = true ∧
      (largest_char_ref c).isSome = true) ∧
    (∀ (α : Type) (gt : α → α → Bool) (l : List α), l ≠ [] →
      (largest_generic gt l).isSome = true ∧
      (largest_generic_copy gt l).isSome = true) := by
  refine ⟨⟨rfl, rfl, rfl, fun α gt => ⟨rfl, rfl⟩⟩, ?_, ?_, ?_⟩
  · intro l hl
    cases l with
    | nil => exact absurd rfl hl
    | cons x xs => rfl
  · intro c hc
    cases c with
    | nil => exact absurd rfl hc
    | cons x xs => exact ⟨rfl, rfl⟩
  · intro α gt l hl
    cases l with
    | nil => exact absurd rfl hl
    | cons x xs => exact ⟨rfl, rfl⟩

/-- C3 witness: the non-emptiness hypotheses discharged on the driver's
numeric sample and on a singleton. -/
theorem spec_c3_witness :
    largest_i32 [] = none ∧
    (largest_i32 [34, 50, 25, 100, 65]).isSome = true ∧
    (largest_char_ref ['y']).isSome = true ∧
    (largest_generic (fun _ _ => false) (['q'] : List Char)).isSome = true :=
  ⟨spec_c3.1.1, spec_c3.2.1 [34, 50, 25, 100, 65] (by decide),
    (spec_c3.2.2.1 ['y'] (by decide)).2,
    (spec_c3.2.2.2 Char (fun _ _ => false) ['q'] (by decide)).1⟩

/-- C4: on the driver's literal inputs, every applicable finder variant
yields `100` on `[34, 50, 25, 100, 65]` and `'y'` on `['y', 'm', 'a', 'q']`,
and these are exactly the values in the lines the driver prints. -/
theorem spec_c4 :
    largest_i32 [34, 50, 25, 100, 65] = some 100 ∧
    (largest_generic gtb ([34, 50, 25, 100, 65] : List Int)).map Prod.snd =
      some 100 ∧
    largest_generic_copy gtb ([34, 50, 25, 100, 65] : List Int) = some 100 ∧
    largest_char_copy ['y', 'm', 'a', 'q'] = some ('y') ∧
    (largest_char_ref ['y', 'm', 'a', 'q']).map Prod.snd = some ('y') ∧
    (largest_generic gtb (['y', 'm', 'a', 'q'] : List Char)).map Prod.snd =
      some ('y') ∧
    largest_generic_copy gtb (['y', 'm', 'a', 'q'] : List Char) = some ('y') ∧
    main_output = some
      ["largest_i32 is 100", "largest_char_copy is y",
       "largest_char_ref is y", "largest_generic is y",
       "largest_generic is 100", "largest_generic is y",
       "largest_generic is 100"] := by
  decide

/-- C5 counterexample: the sixth printed line is labelled `largest_generic`
although the function invoked for it is `largest_generic_copy`, so the
label does not identify the variant invoked. -/
theorem spec_c5_cex :
    main_output.map (fun lines => lines[5]?) =
      some (some ("largest_generic" ++ " is " ++ "y")) ∧
    main_labels[5]? = some ("largest_generic") ∧
    main_invoked[5]? = some ("largest_generic_copy") ∧
    main_labels ≠ main_invoked := by
  decide

/-- C5 (amended): the entry point constructs the two sample sequences,
invokes the five finder variants (seven invocations: the generic ones at
both element types) and writes one line per invocation in the form
`<label> is <value>`; the label names the variant invoked for the first
five invocations, while the two `largest_generic_copy` invocations are
labelled `largest_generic`. -/
theorem spec_c5 :
    main_output = some (List.zipWith (fun lab v => lab ++ " is " ++ v)
      main_labels main_values) ∧
    main_labels.length = 7 ∧ main_invoked.length = 7 ∧
    main_labels.take 5 = main_invoked.take 5 ∧
    main_labels.drop 5 = ["largest_generic", "largest_generic"] ∧
    main_invoked.drop 5 = ["largest_generic_copy", "largest_generic_copy"] := by
  decide

/-- C6: all five variants implement the identical scan: on any non-empty
`i32` list, `largest_i32`, `largest_generic_copy` and the dereferenced
`largest_generic` agree; on any non-empty `char` list, `largest_char_copy`,
`largest_generic_copy` and the dereferenced `largest_char_ref` and
`largest_generic` agree. -/
theorem spec_c6 (l : List Int) (c : List Char) (_hl : l ≠ []) (_hc : c ≠ []) :
    (largest_i32 l = largest_generic_copy gtb l ∧
     (largest_generic gtb l).map Prod.snd = largest_i32 l) ∧
    (largest_char_copy c = largest_generic_copy gtb c ∧
     (largest_char_ref c).map Prod.snd = largest_char_copy c ∧
     (largest_generic gtb c).map Prod.snd = largest_char_copy c) := by
  refine ⟨⟨largest_i32_eq_generic l, ?_⟩,
    largest_char_copy_eq_generic c, ?_, ?_⟩
  · rw [largest_generic_snd, largest_i32_eq_generic]
  · rw [largest_char_ref_eq_generic, largest_generic_snd,
      largest_char_copy_eq_generic]
  · rw [largest_generic_snd, largest_char_copy_eq_generic]

/-- C6 witness: the agreement instantiated on the driver's sample inputs. -/
theorem spec_c6_witness :
    (largest_i32 [34, 50, 25, 100, 65] =
       largest_generic_copy gtb ([34, 50, 25, 100, 65] : List Int) ∧
     (largest_generic gtb ([34, 50, 25, 100, 65] : List Int)).map Prod.snd =
       largest_i32 [34, 50, 25, 100, 65]) ∧
    (largest_char_copy ['y', 'm', 'a', 'q'] =
       largest_generic_copy gtb (['y', 'm', 'a', 'q'] : List Char) ∧
     (largest_char_ref ['y', 'm', 'a', 'q']).map Prod.snd =
       largest_char_copy ['y', 'm', 'a', 'q'] ∧
     (largest_generic gtb (['y', 'm', 'a', 'q'] : List Char)).map Prod.snd =
       largest_char_copy ['y', 'm', 'a', 'q']) :=
  spec_c6 [34, 50, 25, 100, 65] ['y', 'm', 'a', 'q'] (by decide) (by decide)

/-- C7: for every permutation of a non-empty sequence, each finder variant
returns the same value (the referenced position may differ, so only the
value component is compared for the by-reference variants). -/
theorem spec_c7 {α : Type} [LinearOrder α] (l₁ l₂ : List α)
    (c₁ c₂ : List Char) (n₁ n₂ : List Int)
    (hp : l₁.Perm l₂) (hpc : c₁.Perm c₂) (hpn : n₁.Perm n₂)
    (hl : l₁ ≠ []) (hc : c₁ ≠ []) (hn : n₁ ≠ []) :
    largest_generic_copy gtb l₁ = largest_generic_copy gtb l₂ ∧
    (largest_generic gtb l₁).map Prod.snd =
      (largest_generic gtb l₂).map Prod.snd ∧
    largest_i32 n₁ = largest_i32 n₂ ∧
    largest_char_copy c₁ = largest_char_copy c₂ ∧
    (largest_char_ref c₁).map Prod.snd =
      (largest_char_ref c₂).map Prod.snd := by
  refine ⟨copy_perm hp hl, ?_, ?_, ?_, ?_⟩
  · rw [largest_generic_snd, largest_generic_snd]
    exact copy_perm hp hl
  · rw [largest_i32_eq_generic, largest_i32_eq_generic]
    exact copy_perm hpn hn
  · rw [largest_char_copy_eq_generic, largest_char_copy_eq_generic]
    exact copy_perm hpc hc
  · rw [largest_char_ref_eq_generic, largest_char_ref_eq_generic,
      largest_generic_snd, largest_generic_snd]
    exact copy_perm hpc hc

/-- C7 witness: the theorem applied to concrete two-element permutations. -/
theorem spec_c7_witness :
    largest_generic_copy gtb ([3, 7] : List Int) =
      largest_generic_copy gtb ([7, 3] : List Int) ∧
    (largest_generic gtb ([3, 7] : List Int)).map Prod.snd =
      (largest_generic gtb ([7, 3] : List Int)).map Prod.snd ∧
    largest_i32 [34, 50] = largest_i32 [50, 34] ∧
    largest_char_copy ['y', 'm'] = largest_char_copy ['m', 'y'] ∧
    (largest_char_ref ['y', 'm']).map Prod.snd =
      (largest_char_ref ['m', 'y']).map Prod.snd :=
  spec_c7 [3, 7] [7, 3] ['y', 'm'] ['m', 'y'] [34, 50] [50, 34]
    (by decide) (by decide) (by decide) (by decide) (by decide) (by decide)

/-- C8: on a single-element sequence `[x]` every finder variant returns `x`
(the by-reference variants return the sole position 0 holding `x`), for any
element and any comparison. -/
theorem spec_c8 (n : Int) (ch : Char) (α : Type) (gt : α → α → Bool)
    (x : α) :
    largest_i32 [n] = some n ∧
    largest_char_copy [ch] = some ch ∧
    largest_char_ref [ch] = some (0, ch) ∧
    largest_generic gt [x] = some (0, x) ∧
    largest_generic_copy gt [x] = some x := by
  refine ⟨?_, ?_, ?_, ?_, ?_⟩
  · show some (copyLoop gtb n [n]) = some n
    rw [copyLoop_cons, ite_self]
    rfl
  · show some (copyLoop gtb ch [ch]) = some ch
    rw [copyLoop_cons, ite_self]
    rfl
  · show some (refLoop gtb (0, ch) (List.enum [ch])) = some (0, ch)
    rw [show List.enum [ch] = [(0, ch)] from rfl, refLoop_cons, ite_self]
    rfl
  · show some (refLoop gt (0, x) (List.enum [x])) = some (0, x)
    rw [show List.enum [x] = [(0, x)] from rfl, refLoop_cons, ite_self]
    rfl
  · show some (copyLoop gt x [x]) = some x
    rw [copyLoop_cons, ite_self]
    rfl

/-- C9: every finder call terminates as a single finite scan: the loop
needs exactly one step per element, as witnessed by the fuel-bounded loops
succeeding with fuel equal to the list length, and each generic variant
equals its fuel-bounded form. -/
theorem spec_c9 (α : Type) (gt : α → α → Bool) (v : α) (l : List α)
    (p : Nat × α) (ps : List (Nat × α)) :
    copyLoopFuel gt l.length v l = some (copyLoop gt v l) ∧
    refLoopFuel gt ps.length p ps = some (refLoop gt p ps) ∧
    largest_generic_copy gt l =
      (match l with
       | [] => none
       | x :: _ => copyLoopFuel gt l.length x l) ∧
    largest_generic gt l =
      (match l with
       | [] => none
       | x :: _ => refLoopFuel gt l.enum.length (0, x) l.enum) := by
  refine ⟨copyLoopFuel_eq gt l v, refLoopFuel_eq gt ps p, ?_, ?_⟩
  · cases l with
    | nil => rfl
    | cons x xs =>
      show largest_generic_copy gt (x :: xs) =
        copyLoopFuel gt (x :: xs).length x (x :: xs)
      rw [copyLoopFuel_eq]
      rfl
  · cases l with
    | nil => rfl
    | cons x xs =>
      show largest_generic gt (x :: xs) =
        refLoopFuel gt (x :: xs).enum.length (0, x) (x :: xs).enum
      rw [refLoopFuel_eq]
      rfl

/-- C10: for every non-empty sequence and every comparison function
(covering all types admitted by the `PartialOrd` bound, including partial
orders), the value returned by the generic variants is an element of the
sequence: some index holds exactly the returned value. -/
theorem spec_c10 (α : Type) (gt : α → α → Bool) (l : List α) (h : l ≠ []) :
    (∃ m, largest_generic_copy gt l = some m ∧ ∃ i : Nat, l[i]? = some m) ∧
    (∃ (i : Nat) (m : α), largest_generic gt l = some (i, m) ∧
      l[i]? = some m) := by
  cases l with
  | nil => exact absurd rfl h
  | cons x xs =>
    constructor
    · refine ⟨copyLoop gt x (x :: xs), rfl, ?_⟩
      have hm : copyLoop gt x (x :: xs) ∈ x :: xs := by
        rcases List.mem_cons.mp (copyLoop_mem gt x (x :: xs)) with h1 | h2
        · rw [h1]; exact List.mem_cons_self x xs
        · exact h2
      exact List.mem_iff_getElem?.mp hm
    · obtain ⟨i, m, hr⟩ :
          ∃ i m, refLoop gt (0, x) (List.enum (x :: xs)) = (i, m) :=
        ⟨_, _, rfl⟩
      have hmem : refLoop gt (0, x) (List.enum (x :: xs)) ∈
          List.enum (x :: xs) := by
        rcases List.mem_cons.mp
            (refLoop_mem gt (0, x) (List.enum (x :: xs))) with h1 | h2
        · rw [h1]; exact List.mem_cons_self (0, x) (List.enumFrom 1 xs)
        · exact h2
      rw [hr] at hmem
      refine ⟨i, m, ?_, List.mk_mem_enum_iff_getElem?.mp hmem⟩
      show some (refLoop gt (0, x) (List.enum (x :: xs))) = some (i, m)
      rw [hr]

/-- C10 witness: membership instantiated with a comparison that is not an
order (constantly true) on a concrete list. -/
theorem spec_c10_witness :
    (∃ m, largest_generic_copy (fun _ _ => true) ([3, 7] : List Int) =
      some m ∧ ∃ i : Nat, ([3, 7] : List Int)[i]? = some m) ∧
    (∃ (i : Nat) (m : Int),
      largest_generic (fun _ _ => true) ([3, 7] : List Int) = some (i, m) ∧
      ([3, 7] : List Int)[i]? = some m) :=
  spec_c10 Int (fun _ _ => true) [3, 7] (by decide)

end Chapter10
